import Mathlib

/-!
Verification of the timeseries algebra module (`gs_quant/timeseries/algebra.py`).

A timeseries is modelled as a list of (timestamp, value) pairs with natural-number
timestamps.  Values carry the IEEE-style special values used by the underlying
numeric platform (missing marker `nan`, signed infinities) on top of exact
rationals (for the alignment/arithmetic layer) or reals (for the transcendental
unary functions `exp`, `log`, `power`, `sqrt`).
-/

namespace GsAlgebra

/-- A platform numeric value: a finite number, the missing marker, or a signed
infinity. -/
inductive Val (α : Type) where
  | num (a : α)
  | nan
  | inf
  | neginf
deriving DecidableEq

abbrev QVal := Val ℚ

/-- A timeseries: ordered (timestamp, value) pairs. -/
abbrev QSeries := List (Nat × QVal)

/-- The timestamp index of a series. -/
def index {α : Type} (s : List (Nat × α)) : List Nat := s.map Prod.fst

/-- Scalar-vs-series tagged union for the binary operator arguments. -/
inductive TsArg where
  | scalar (v : QVal)
  | series (s : QSeries)
deriving DecidableEq

/-- The interpolation / alignment method enum (`Interpolate`). -/
inductive Interpolate where
  | intersect
  | nan
  | zero
  | step
deriving DecidableEq

/-- Pandas `is_monotonic_increasing`: non-strict monotonicity of the index. -/
def isMonotonicIncreasing : List Nat → Bool
  | [] => true
  | [_] => true
  | a :: b :: rest => a ≤ b && isMonotonicIncreasing (b :: rest)

/-- Strict ascending order of a timestamp list. -/
def strictlyAscending : List Nat → Bool
  | [] => true
  | [_] => true
  | a :: b :: rest => a < b && strictlyAscending (b :: rest)

/-- IEEE-style addition on platform values: `nan` propagates, opposite
infinities give `nan`. -/
def addVal : QVal → QVal → QVal
  | .nan, _ => .nan
  | _, .nan => .nan
  | .inf, .neginf => .nan
  | .neginf, .inf => .nan
  | .inf, _ => .inf
  | _, .inf => .inf
  | .neginf, _ => .neginf
  | _, .neginf => .neginf
  | .num a, .num b => .num (a + b)

/-- IEEE-style subtraction on platform values. -/
def subVal : QVal → QVal → QVal
  | .nan, _ => .nan
  | _, .nan => .nan
  | .inf, .inf => .nan
  | .neginf, .neginf => .nan
  | .inf, _ => .inf
  | _, .inf => .neginf
  | .neginf, _ => .neginf
  | _, .neginf => .inf
  | .num a, .num b => .num (a - b)

/-- IEEE-style multiplication on platform values: `0 × ∞ = nan`. -/
def mulVal : QVal → QVal → QVal
  | .nan, _ => .nan
  | _, .nan => .nan
  | .inf, .inf => .inf
  | .inf, .neginf => .neginf
  | .neginf, .inf => .neginf
  | .neginf, .neginf => .inf
  | .inf, .num b => if b = 0 then .nan else if b < 0 then .neginf else .inf
  | .num a, .inf => if a = 0 then .nan else if a < 0 then .neginf else .inf
  | .neginf, .num b => if b = 0 then .nan else if b < 0 then .inf else .neginf
  | .num a, .neginf => if a = 0 then .nan else if a < 0 then .inf else .neginf
  | .num a, .num b => .num (a * b)

/-- IEEE-style division on platform values: a nonzero finite numerator over a
zero denominator gives a signed infinity, `0 / 0` gives `nan`. -/
def divVal : QVal → QVal → QVal
  | .nan, _ => .nan
  | _, .nan => .nan
  | .inf, .inf => .nan
  | .inf, .neginf => .nan
  | .neginf, .inf => .nan
  | .neginf, .neginf => .nan
  | .inf, .num b => if b < 0 then .neginf else .inf
  | .neginf, .num b => if b < 0 then .inf else .neginf
  | .num _, .inf => .num 0
  | .num _, .neginf => .num 0
  | .num a, .num b =>
      if b = 0 then (if 0 < a then .inf else if a < 0 then .neginf else .nan)
      else .num (a / b)

/-- The value a series has at timestamp `t`, missing marker when absent. -/
def valAt (s : QSeries) (t : Nat) : QVal :=
  match s.find? (fun p => p.1 = t) with
  | some p => p.2
  | none => .nan

/-- ZERO reindexing: the value at `t`, zero when absent. -/
def zeroAt (s : QSeries) (t : Nat) : QVal :=
  match s.find? (fun p => p.1 = t) with
  | some p => p.2
  | none => .num 0

/-- STEP reindexing: the most recent observation at or before `t`
(last-observation-carried-forward), missing marker when no prior observation
exists. -/
def stepAt (s : QSeries) (t : Nat) : QVal :=
  match (s.filter (fun p => p.1 ≤ t)).getLast? with
  | some p => p.2
  | none => .nan

/-- Insert a timestamp into a sorted timestamp list, keeping it sorted and
duplicate-free. -/
def insertTs (t : Nat) : List Nat → List Nat
  | [] => [t]
  | a :: rest =>
      if t < a then t :: a :: rest
      else if t = a then a :: rest
      else a :: insertTs t rest

/-- Sorted union of two timestamp lists. -/
def unionIdx : List Nat → List Nat → List Nat
  | [], ys => ys
  | x :: xs, ys => insertTs x (unionIdx xs ys)

/-- Sorted intersection of two timestamp lists. -/
def interIdx (xs ys : List Nat) : List Nat := xs.filter (fun t => ys.contains t)

/-- Modelled from the spec: the series-to-series part of the alignment engine
`align` (defined in `gs_quant.timeseries.datetime`, which is absent from the
sources).  Per the spec: INTERSECT keeps the sorted intersection of the two
indices, each side with its own values; NAN / ZERO / STEP reindex both sides
over the sorted union, substituting the missing marker, zero, or the
last-observation-carried-forward value (missing when no prior observation
exists) at timestamps absent from a side. -/
def alignPair (x y : QSeries) (m : Interpolate) : QSeries × QSeries :=
  match m with
  | .intersect =>
      let idx := interIdx (index x) (index y)
      (idx.map (fun t => (t, valAt x t)), idx.map (fun t => (t, valAt y t)))
  | .nan =>
      let idx := unionIdx (index x) (index y)
      (idx.map (fun t => (t, valAt x t)), idx.map (fun t => (t, valAt y t)))
  | .zero =>
      let idx := unionIdx (index x) (index y)
      (idx.map (fun t => (t, zeroAt x t)), idx.map (fun t => (t, zeroAt y t)))
  | .step =>
      let idx := unionIdx (index x) (index y)
      (idx.map (fun t => (t, stepAt x t)), idx.map (fun t => (t, stepAt y t)))

/-- Modelled from the spec: the alignment engine `align` from
`gs_quant.timeseries.datetime`, absent from the sources.  Two scalars are
returned unchanged; a scalar against a series is broadcast over the series
index; two series are reconciled by `alignPair` per the method. -/
def align (x y : TsArg) (m : Interpolate) : TsArg × TsArg :=
  match x, y with
  | .scalar a, .scalar b => (.scalar a, .scalar b)
  | .scalar a, .series s => (.series ((index s).map (fun t => (t, a))), .series s)
  | .series s, .scalar b => (.series s, .series ((index s).map (fun t => (t, b))))
  | .series sx, .series sy =>
      let p := alignPair sx sy m
      (.series p.1, .series p.2)

/-- Pointwise combination of two aligned series, keeping the left index. -/
def combine (f : QVal → QVal → QVal) (p : QSeries × QSeries) : QSeries :=
  List.zipWith (fun a b => (a.1, f a.2 b.2)) p.1 p.2

/-- Align the two arguments, then apply the elementwise operator to the aligned
pair (scalar arithmetic when both sides are scalars; a remaining scalar side is
broadcast over the other index, as pandas does). -/
def applyOp (f : QVal → QVal → QVal) (x y : TsArg) (m : Interpolate) : TsArg :=
  match align x y m with
  | (.scalar a, .scalar b) => .scalar (f a b)
  | (.series a, .series b) => .series (combine f (a, b))
  | (.scalar a, .series b) => .series (combine f ((index b).map (fun t => (t, a)), b))
  | (.series a, .scalar b) => .series (combine f (a, (index a).map (fun t => (t, b))))

/-- `add`: align then elementwise addition (default method: STEP). -/
def add (x y : TsArg) (m : Interpolate := .step) : TsArg := applyOp addVal x y m

/-- `subtract`: align then elementwise subtraction (default method: STEP). -/
def subtract (x y : TsArg) (m : Interpolate := .step) : TsArg := applyOp subVal x y m

/-- `multiply`: align then elementwise multiplication (default method: STEP). -/
def multiply (x y : TsArg) (m : Interpolate := .step) : TsArg := applyOp mulVal x y m

/-- `divide`: align then elementwise division (default method: STEP). -/
def divide (x y : TsArg) (m : Interpolate := .step) : TsArg := applyOp divVal x y m

/-- The index of a binary-operator result (empty for a scalar result). -/
def tsIndex : TsArg → List Nat
  | .scalar _ => []
  | .series s => index s

/-- Float-style strict greater-than on platform values: any comparison
involving `nan` is false. -/
def valGt : QVal → QVal → Bool
  | .nan, _ => false
  | _, .nan => false
  | .inf, .inf => false
  | .inf, _ => true
  | _, .inf => false
  | .neginf, _ => false
  | _, .neginf => true
  | .num a, .num b => b < a

/-- Python `max(y, value)`: the second argument when strictly greater, else the
first. -/
def pyMax (y v : QVal) : QVal := if valGt v y then v else y

/-- Python `min(y, value)`: the second argument when strictly smaller, else the
first. -/
def pyMin (y v : QVal) : QVal := if valGt y v then v else y

/-- `floor`: assert pandas (non-strict) `is_monotonic_increasing` on the index,
then map `max(y, value)` over the values; the failed assertion is modelled as
`none`. -/
def floor (x : QSeries) (value : ℚ := 0) : Option QSeries :=
  if isMonotonicIncreasing (index x) then
    some (x.map (fun p => (p.1, pyMax p.2 (.num value))))
  else none

/-- `ceil`: assert pandas (non-strict) `is_monotonic_increasing` on the index,
then map `min(y, value)` over the values; the failed assertion is modelled as
`none`. -/
def ceil (x : QSeries) (value : ℚ := 0) : Option QSeries :=
  if isMonotonicIncreasing (index x) then
    some (x.map (fun p => (p.1, pyMin p.2 (.num value))))
  else none

/-! ### Real-valued unary functions (`exp`, `log`, `power`, `sqrt`)

Float values are modelled as reals extended with the platform special values;
the transcendental maps follow the numpy conventions on those special values. -/

abbrev RVal := Val ℝ

abbrev RSeries := List (Nat × RVal)

/-- Scalar-vs-series tagged union over real-valued series (for `sqrt`). -/
inductive RArg where
  | scalar (v : RVal)
  | series (s : RSeries)

/-- `np.exp` on one platform value. -/
noncomputable def expVal : RVal → RVal
  | .num a => .num (Real.exp a)
  | .nan => .nan
  | .inf => .inf
  | .neginf => .num 0

/-- `np.log` on one platform value: `nan` for negative arguments, `-inf` at
zero. -/
noncomputable def logVal : RVal → RVal
  | .num a => if a < 0 then .nan else if a = 0 then .neginf else .num (Real.log a)
  | .nan => .nan
  | .inf => .inf
  | .neginf => .nan

/-- `exp`: `np.exp` applied elementwise over the series. -/
noncomputable def exp (x : RSeries) : RSeries := x.map (fun p => (p.1, expVal p.2))

/-- `log`: `np.log` applied elementwise over the series. -/
noncomputable def log (x : RSeries) : RSeries := x.map (fun p => (p.1, logVal p.2))

open Classical in
/-- `np.power` on one platform value, exponent `y` (real power; `nan` for a
negative base with a non-integral exponent, following numpy). -/
noncomputable def powVal (v : RVal) (y : ℝ) : RVal :=
  match v with
  | .num a =>
      if a = 0 ∧ y < 0 then .inf
      else if a < 0 ∧ ¬ ∃ k : ℤ, (k : ℝ) = y then .nan
      else .num (Real.rpow a y)
  | .nan => if y = 0 then .num 1 else .nan
  | .inf => if y < 0 then .num 0 else if y = 0 then .num 1 else .inf
  | .neginf =>
      if y < 0 then .num 0
      else if y = 0 then .num 1
      else if ∃ k : ℤ, Odd k ∧ (k : ℝ) = y then .neginf else .inf

/-- `power`: `np.power` applied elementwise, exponent defaulting to 1. -/
noncomputable def power (x : RSeries) (y : ℝ := 1) : RSeries :=
  x.map (fun p => (p.1, powVal p.2 y))

/-- `np.sqrt` on one platform value: total, `nan` for negative arguments. -/
noncomputable def npSqrtVal : RVal → RVal
  | .num a => if a < 0 then .nan else .num (Real.sqrt a)
  | .nan => .nan
  | .inf => .inf
  | .neginf => .nan

/-- `math.sqrt` on one platform value: raises a domain error (modelled as
`none`) for negative finite arguments and for `-inf`; `nan` and `inf` pass
through. -/
noncomputable def mathSqrtVal : RVal → Option RVal
  | .num a => if a < 0 then none else some (.num (Real.sqrt a))
  | .nan => some .nan
  | .inf => some .inf
  | .neginf => none

/-- `sqrt`: `np.sqrt` elementwise when the argument is a series, `math.sqrt`
when it is a scalar (mirroring the isinstance dispatch in the source). -/
noncomputable def sqrt : RArg → Option RArg
  | .series s => some (.series (s.map (fun p => (p.1, npSqrtVal p.2))))
  | .scalar v => (mathSqrtVal v).map RArg.scalar

/-! ### Helper lemmas -/
theorem addVal_num_zero (v : QVal) : addVal v (.num 0) = v := by
  cases v <;> simp [addVal]

theorem index_combine (f g : QVal → QVal → QVal) (a b : QSeries) :
    index (combine f (a, b)) = index (combine g (a, b)) := by
  induction a generalizing b with
  | nil => rfl
  | cons p resta ih =>
      cases b with
      | nil => rfl
      | cons q restb => simpa [combine, index] using ih restb

theorem tsIndex_applyOp (f g : QVal → QVal → QVal) (x y : TsArg) (m : Interpolate) :
    tsIndex (applyOp f x y m) = tsIndex (applyOp g x y m) := by
  cases x with
  | scalar a =>
      cases y with
      | scalar b => rfl
      | series s => simpa [applyOp, align, tsIndex] using index_combine f g _ _
  | series s =>
      cases y with
      | scalar b => simpa [applyOp, align, tsIndex] using index_combine f g _ _
      | series t => simpa [applyOp, align, tsIndex] using index_combine f g _ _

theorem interIdx_self (l : List Nat) : interIdx l l = l := by
  rw [interIdx, List.filter_eq_self]
  intro a ha
  simpa using ha

theorem isMonotonicIncreasing_of_strict :
    ∀ l : List Nat, strictlyAscending l = true → isMonotonicIncreasing l = true
  | [], _ => rfl
  | [_], _ => rfl
  | a :: b :: r, h => by
      simp [strictlyAscending] at h
      simp [isMonotonicIncreasing, Nat.le_of_lt h.1,
        isMonotonicIncreasing_of_strict (b :: r) h.2]

theorem isMonotonicIncreasing_iff_chain :
    ∀ l : List Nat, isMonotonicIncreasing l = true ↔ List.Chain' (· ≤ ·) l
  | [] => by simp [isMonotonicIncreasing]
  | [_] => by simp [isMonotonicIncreasing]
  | a :: b :: r => by
      rw [List.chain'_cons]
      simp [isMonotonicIncreasing, isMonotonicIncreasing_iff_chain (b :: r)]

theorem strictlyAscending_tail :
    ∀ {a : Nat} {l : List Nat}, strictlyAscending (a :: l) = true → strictlyAscending l = true
  | _, [], _ => rfl
  | a, b :: r, h => by
      have h1 : a < b ∧ strictlyAscending (b :: r) = true := by
        simpa [strictlyAscending] using h
      exact h1.2

theorem strictlyAscending_head_lt {a : Nat} {l : List Nat}
    (h : strictlyAscending (a :: l) = true) : ∀ b ∈ l, a < b := by
  induction l generalizing a with
  | nil => intro b hb; simp at hb
  | cons c r ih =>
      intro b hb
      have h1 : a < c ∧ strictlyAscending (c :: r) = true := by
        simpa [strictlyAscending] using h
      rcases List.mem_cons.1 hb with rfl | hbr
      · exact h1.1
      · exact lt_trans h1.1 (ih h1.2 b hbr)

theorem valAt_cons_of_ne {p : Nat × QVal} {rest : QSeries} {t : Nat} (h : p.1 ≠ t) :
    valAt (p :: rest) t = valAt rest t := by
  simp [valAt, List.find?_cons, h]

theorem valAt_cons_self {p : Nat × QVal} {rest : QSeries} :
    valAt (p :: rest) p.1 = p.2 := by
  simp [valAt, List.find?_cons]

theorem valAt_get (y : QSeries) (h : strictlyAscending (index y) = true)
    (i : Nat) (hi : i < y.length) :
    valAt y ((y.get ⟨i, hi⟩).1) = (y.get ⟨i, hi⟩).2 := by
  induction y generalizing i with
  | nil => simp at hi
  | cons p rest ih =>
      cases i with
      | zero => exact valAt_cons_self
      | succ j =>
          have hj : j < rest.length := Nat.lt_of_succ_lt_succ (by simpa using hi)
          have hget : (p :: rest).get ⟨j + 1, hi⟩ = rest.get ⟨j, hj⟩ := rfl
          have hmem : rest.get ⟨j, hj⟩ ∈ rest := List.get_mem rest j hj
          have hmk : (rest.get ⟨j, hj⟩).1 ∈ index rest :=
            List.mem_map_of_mem Prod.fst hmem
          have hkey : p.1 < (rest.get ⟨j, hj⟩).1 :=
            strictlyAscending_head_lt (by simpa [index] using h) _ hmk
          have htail : strictlyAscending (index rest) = true :=
            strictlyAscending_tail (by simpa [index] using h)
          rw [hget, valAt_cons_of_ne (Nat.ne_of_lt hkey)]
          exact ih htail j hj

theorem combine_map (f : QVal → QVal → QVal) (idx : List Nat) (g h : Nat → QVal) :
    combine f (idx.map (fun t => (t, g t)), idx.map (fun t => (t, h t)))
      = idx.map (fun t => (t, f (g t) (h t))) := by
  induction idx with
  | nil => rfl
  | cons a l ih => simp [combine]

theorem index_map_key (idx : List Nat) (g : Nat → QVal) :
    index (idx.map (fun t => (t, g t))) = idx := by
  have hcomp : (Prod.fst ∘ fun t : Nat => (t, g t)) = id := rfl
  simp [index, List.map_map, hcomp]

theorem divVal_zero_mem (v : QVal) :
    divVal v (.num 0) = .inf ∨ divVal v (.num 0) = .neginf ∨ divVal v (.num 0) = .nan := by
  cases v with
  | num a =>
      rcases lt_trichotomy a 0 with h | h | h
      · right; left; norm_num [divVal, h, not_lt.2 (le_of_lt h)]
      · subst h; right; right; norm_num [divVal]
      · left; norm_num [divVal, h, not_lt.2 (le_of_lt h)]
  | nan => right; right; simp [divVal]
  | inf => left; norm_num [divVal]
  | neginf => right; left; norm_num [divVal]

theorem pyMax_num (a v : ℚ) : pyMax (.num a) (.num v) = .num (max a v) := by
  by_cases h : a < v
  · simp [pyMax, valGt, h, max_eq_right (le_of_lt h)]
  · simp [pyMax, valGt, h, max_eq_left (not_lt.1 h)]

theorem pyMin_num (a v : ℚ) : pyMin (.num a) (.num v) = .num (min a v) := by
  by_cases h : v < a
  · simp [pyMin, valGt, h, min_eq_right (le_of_lt h)]
  · simp [pyMin, valGt, h, min_eq_left (not_lt.1 h)]

/-! ### Claim theorems -/

/-- Claim C1 (counterexample): with `a = {1: 1, 3: 3}`, `b = {2: 2, 3: 4}`,
`add(a, b, STEP)` does not return the values `{1, 3, 7}`: at the first
timestamp `b` has no prior observation, so the result there is the missing
marker, not 1. -/
theorem add_step_scenario_counterexample :
    add (.series [((1:Nat), Val.num (1:ℚ)), (3, .num 3)])
        (.series [((2:Nat), Val.num (2:ℚ)), (3, .num 4)]) .step
      ≠ .series [(1, .num 1), (2, .num 3), (3, .num 7)] := by
  norm_num [add, applyOp, align, alignPair, unionIdx, insertTs, index, combine,
    stepAt, addVal, List.filter]
  intro hcontra
  exact Val.noConfusion hcontra

/-- Claim C1 (amended): with `a = {1: 1, 3: 3}`, `b = {2: 2, 3: 4}`,
`add(a, b, STEP)` has index `{1, 2, 3}` and values `{missing, 3, 7}`: at
timestamp 2 the value 1 of `a` is carried forward (1 + 2 = 3), while at
timestamp 1 `b` has no prior observation, so its substituted value is the
missing marker and the sum is missing. -/
theorem add_step_scenario :
    add (.series [((1:Nat), Val.num (1:ℚ)), (3, .num 3)])
        (.series [((2:Nat), Val.num (2:ℚ)), (3, .num 4)]) .step
      = .series [(1, .nan), (2, .num 3), (3, .num 7)] := by
  norm_num [add, applyOp, align, alignPair, unionIdx, insertTs, index, combine,
    stepAt, addVal, List.filter]

/-- Claim C2: for every pair of timeseries and every alignment method, the four
results of add, subtract, multiply and divide share the identical timestamp
index. -/
theorem binary_ops_same_index (a b : QSeries) (m : Interpolate)
    (ha : strictlyAscending (index a) = true)
    (hb : strictlyAscending (index b) = true) :
    tsIndex (add (.series a) (.series b) m) = tsIndex (subtract (.series a) (.series b) m) ∧
    tsIndex (subtract (.series a) (.series b) m) = tsIndex (multiply (.series a) (.series b) m) ∧
    tsIndex (multiply (.series a) (.series b) m) = tsIndex (divide (.series a) (.series b) m) :=
  ⟨tsIndex_applyOp addVal subVal _ _ m, tsIndex_applyOp subVal mulVal _ _ m,
    tsIndex_applyOp mulVal divVal _ _ m⟩

theorem binary_ops_same_index_witness :
    tsIndex (add (.series [((0:Nat), Val.num (1:ℚ))]) (.series [((1:Nat), Val.num (2:ℚ))]) .step)
      = tsIndex (subtract (.series [((0:Nat), Val.num (1:ℚ))]) (.series [((1:Nat), Val.num (2:ℚ))]) .step) ∧
    tsIndex (subtract (.series [((0:Nat), Val.num (1:ℚ))]) (.series [((1:Nat), Val.num (2:ℚ))]) .step)
      = tsIndex (multiply (.series [((0:Nat), Val.num (1:ℚ))]) (.series [((1:Nat), Val.num (2:ℚ))]) .step) ∧
    tsIndex (multiply (.series [((0:Nat), Val.num (1:ℚ))]) (.series [((1:Nat), Val.num (2:ℚ))]) .step)
      = tsIndex (divide (.series [((0:Nat), Val.num (1:ℚ))]) (.series [((1:Nat), Val.num (2:ℚ))]) .step) :=
  binary_ops_same_index [((0:Nat), Val.num (1:ℚ))] [((1:Nat), Val.num (2:ℚ))] .step
    (by decide) (by decide)

/-- Claim C3 (counterexample): a series with a duplicated timestamp is not
strictly ascending, yet `floor` and `ceil` both succeed on it: the source only
asserts the non-strict `is_monotonic_increasing`. -/
theorem floor_ceil_duplicate_counterexample :
    strictlyAscending (index [((0:Nat), Val.num (1:ℚ)), (0, .num 2)]) = false ∧
    floor [((0:Nat), Val.num (1:ℚ)), (0, .num 2)] 0 = some [(0, .num 1), (0, .num 2)] ∧
    ceil [((0:Nat), Val.num (1:ℚ)), (0, .num 2)] 0 = some [(0, .num 0), (0, .num 0)] := by
  refine ⟨by decide, ?_, ?_⟩ <;>
    norm_num [floor, ceil, isMonotonicIncreasing, index, pyMax, pyMin, valGt]

/-- Claim C3 (amended): `floor` and `ceil` fail on every series whose index is
not monotonically non-decreasing (the asserted check is pandas' non-strict
monotonicity, so a merely non-strictly-ascending index with duplicates is
accepted). -/
theorem floor_ceil_reject_nonmonotonic (x : QSeries) (v : ℚ)
    (h : ¬ List.Chain' (· ≤ ·) (index x)) :
    floor x v = none ∧ ceil x v = none := by
  have hb : isMonotonicIncreasing (index x) = false := by
    rcases Bool.eq_false_or_eq_true (isMonotonicIncreasing (index x)) with hf | ht
    · exact absurd ((isMonotonicIncreasing_iff_chain (index x)).1 hf) h
    · exact ht
  simp [floor, ceil, hb]

theorem floor_ceil_reject_nonmonotonic_witness :
    floor [((1:Nat), Val.num (0:ℚ)), (0, .num 0)] 0 = none ∧
    ceil [((1:Nat), Val.num (0:ℚ)), (0, .num 0)] 0 = none :=
  floor_ceil_reject_nonmonotonic [((1:Nat), Val.num (0:ℚ)), (0, .num 0)] 0
    (by simp [index, List.chain'_cons])

/-- Claim C4: on a strictly-ascending series, `floor` keeps the index and maps
each numeric element `a` to `max a v`; concretely
`floor([-5, 0, 5], 0) = [0, 0, 5]`. -/
theorem floor_spec (x : QSeries) (v : ℚ)
    (h : strictlyAscending (index x) = true) :
    (∃ r, floor x v = some r ∧ index r = index x ∧
      ∀ i (hi : i < x.length) (a : ℚ), (x.get ⟨i, hi⟩).2 = .num a →
        ∃ hj : i < r.length, (r.get ⟨i, hj⟩).2 = .num (max a v)) ∧
    floor [((0:Nat), Val.num (-5:ℚ)), (1, .num 0), (2, .num 5)] 0
      = some [(0, .num 0), (1, .num 0), (2, .num 5)] := by
  constructor
  · refine ⟨x.map (fun p => (p.1, pyMax p.2 (.num v))), ?_, ?_, ?_⟩
    · simp [floor, isMonotonicIncreasing_of_strict _ h]
    · have hcomp : (Prod.fst ∘ fun p : Nat × QVal => (p.1, pyMax p.2 (.num v))) = Prod.fst := rfl
      simp [index, List.map_map, hcomp]
    · intro i hi a hval
      have hj : i < (x.map (fun p => (p.1, pyMax p.2 (.num v)))).length := by simpa using hi
      refine ⟨hj, ?_⟩
      have hmap : (x.map (fun p => (p.1, pyMax p.2 (.num v)))).get ⟨i, hj⟩
          = ((x.get ⟨i, hi⟩).1, pyMax (x.get ⟨i, hi⟩).2 (.num v)) := by
        simp [List.get_eq_getElem, List.getElem_map]
      rw [hmap]
      show pyMax (x.get ⟨i, hi⟩).2 (.num v) = .num (max a v)
      rw [hval, pyMax_num]
  · norm_num [floor, isMonotonicIncreasing, index, pyMax, valGt]

theorem floor_spec_witness :
    (∃ r, floor [((0:Nat), Val.num (-5:ℚ)), (1, .num 0), (2, .num 5)] 0 = some r ∧
      index r = index [((0:Nat), Val.num (-5:ℚ)), (1, .num 0), (2, .num 5)] ∧
      ∀ i (hi : i < ([((0:Nat), Val.num (-5:ℚ)), (1, .num 0), (2, .num 5)] : QSeries).length)
        (a : ℚ),
        (([((0:Nat), Val.num (-5:ℚ)), (1, .num 0), (2, .num 5)] : QSeries).get ⟨i, hi⟩).2 = .num a →
        ∃ hj : i < r.length, (r.get ⟨i, hj⟩).2 = .num (max a 0)) ∧
    floor [((0:Nat), Val.num (-5:ℚ)), (1, .num 0), (2, .num 5)] 0
      = some [(0, .num 0), (1, .num 0), (2, .num 5)] :=
  floor_spec [((0:Nat), Val.num (-5:ℚ)), (1, .num 0), (2, .num 5)] 0 (by decide)

/-- Claim C5: on a strictly-ascending series, `ceil` keeps the index and maps
each numeric element `a` to `min a v`. -/
theorem ceil_spec (x : QSeries) (v : ℚ)
    (h : strictlyAscending (index x) = true) :
    ∃ r, ceil x v = some r ∧ index r = index x ∧
      ∀ i (hi : i < x.length) (a : ℚ), (x.get ⟨i, hi⟩).2 = .num a →
        ∃ hj : i < r.length, (r.get ⟨i, hj⟩).2 = .num (min a v) := by
  refine ⟨x.map (fun p => (p.1, pyMin p.2 (.num v))), ?_, ?_, ?_⟩
  · simp [ceil, isMonotonicIncreasing_of_strict _ h]
  · have hcomp : (Prod.fst ∘ fun p : Nat × QVal => (p.1, pyMin p.2 (.num v))) = Prod.fst := rfl
    simp [index, List.map_map, hcomp]
  · intro i hi a hval
    have hj : i < (x.map (fun p => (p.1, pyMin p.2 (.num v)))).length := by simpa using hi
    refine ⟨hj, ?_⟩
    have hmap : (x.map (fun p => (p.1, pyMin p.2 (.num v)))).get ⟨i, hj⟩
        = ((x.get ⟨i, hi⟩).1, pyMin (x.get ⟨i, hi⟩).2 (.num v)) := by
      simp [List.get_eq_getElem, List.getElem_map]
    rw [hmap]
    show pyMin (x.get ⟨i, hi⟩).2 (.num v) = .num (min a v)
    rw [hval, pyMin_num]

theorem ceil_spec_witness :
    ∃ r, ceil [((0:Nat), Val.num (5:ℚ))] 3 = some r ∧
      index r = index [((0:Nat), Val.num (5:ℚ))] ∧
      ∀ i (hi : i < ([((0:Nat), Val.num (5:ℚ))] : QSeries).length) (a : ℚ),
        (([((0:Nat), Val.num (5:ℚ))] : QSeries).get ⟨i, hi⟩).2 = .num a →
        ∃ hj : i < r.length, (r.get ⟨i, hj⟩).2 = .num (min a 3) :=
  ceil_spec [((0:Nat), Val.num (5:ℚ))] 3 (by decide)

theorem combine_addVal_broadcast_zero (a : QSeries) :
    combine addVal (a, (index a).map (fun t => (t, Val.num (0:ℚ)))) = a := by
  induction a with
  | nil => rfl
  | cons p rest ih =>
      show (p.1, addVal p.2 (.num 0)) ::
          combine addVal (rest, (index rest).map (fun t => (t, Val.num (0:ℚ)))) = p :: rest
      rw [addVal_num_zero, ih]

/-- Claim C6: adding the scalar 0 under the ZERO alignment method is the
identity on series, elementwise with the index unchanged. -/
theorem add_scalar_zero_identity (a : QSeries) :
    add (.series a) (.scalar (.num 0)) .zero = .series a := by
  show TsArg.series (combine addVal (a, (index a).map (fun t => (t, Val.num (0:ℚ))))) = .series a
  rw [combine_addVal_broadcast_zero]

/-- Claim C8: dividing by a zero denominator at some timestamp of two
index-aligned series yields the platform division-by-zero value there
(an infinity or the missing marker) rather than an error; in particular
`divide([10], [0], INTERSECT) = [inf]`. -/
theorem divide_zero_denominator (x y : QSeries) (i : Nat) (hi : i < y.length)
    (hsy : strictlyAscending (index y) = true)
    (hidx : index x = index y)
    (h0 : (y.get ⟨i, hi⟩).2 = .num 0) :
    (∃ r, divide (.series x) (.series y) .intersect = .series r ∧ index r = index x ∧
      ∃ hj : i < r.length,
        (r.get ⟨i, hj⟩).2 = .inf ∨ (r.get ⟨i, hj⟩).2 = .neginf ∨ (r.get ⟨i, hj⟩).2 = .nan) ∧
    divide (.series [((0:Nat), Val.num (10:ℚ))]) (.series [((0:Nat), Val.num (0:ℚ))]) .intersect
      = .series [(0, .inf)] := by
  constructor
  · have hred : divide (.series x) (.series y) .intersect
        = .series (combine divVal
            ((interIdx (index x) (index y)).map (fun t => (t, valAt x t)),
             (interIdx (index x) (index y)).map (fun t => (t, valAt y t)))) := rfl
    have hii : interIdx (index x) (index y) = index x := by
      rw [hidx]; exact interIdx_self _
    refine ⟨(index x).map (fun t => (t, divVal (valAt x t) (valAt y t))), ?_, ?_, ?_⟩
    · rw [hred, hii, combine_map]
    · exact index_map_key _ _
    · have hleny : (index x).length = y.length := by rw [hidx]; simp [index]
      have hj : i < ((index x).map (fun t => (t, divVal (valAt x t) (valAt y t)))).length := by
        simpa [hleny] using hi
      refine ⟨hj, ?_⟩
      have hilen : i < (index x).length := by simpa [hleny] using hi
      have hmap : ((index x).map (fun t => (t, divVal (valAt x t) (valAt y t)))).get ⟨i, hj⟩
          = ((index x).get ⟨i, hilen⟩,
              divVal (valAt x ((index x).get ⟨i, hilen⟩)) (valAt y ((index x).get ⟨i, hilen⟩))) := by
        simp [List.get_eq_getElem, List.getElem_map]
      have hiy : i < (index y).length := by rw [← hidx]; exact hilen
      have hty : (index x).get ⟨i, hilen⟩ = (y.get ⟨i, hi⟩).1 := by
        have hget : ∀ (l1 l2 : List Nat), l1 = l2 → ∀ (ha : i < l1.length) (hb : i < l2.length),
            l1.get ⟨i, ha⟩ = l2.get ⟨i, hb⟩ := by
          intro l1 l2 he ha hb
          subst he
          rfl
        have h1 : (index x).get ⟨i, hilen⟩ = (index y).get ⟨i, hiy⟩ :=
          hget _ _ hidx hilen hiy
        have h2 : (index y).get ⟨i, hiy⟩ = (y.get ⟨i, hi⟩).1 := by
          simp [index, List.get_eq_getElem, List.getElem_map]
        rw [h1, h2]
      have hvy : valAt y ((index x).get ⟨i, hilen⟩) = .num 0 := by
        rw [hty, valAt_get y hsy i hi, h0]
      rw [hmap]
      show divVal (valAt x ((index x).get ⟨i, hilen⟩)) (valAt y ((index x).get ⟨i, hilen⟩))
          = .inf ∨ _ ∨ _
      rw [hvy]
      exact divVal_zero_mem _
  · norm_num [divide, applyOp, align, alignPair, interIdx, index, combine,
      valAt, divVal, List.filter, List.find?]

theorem divide_zero_denominator_witness :
    (∃ r, divide (.series [((0:Nat), Val.num (10:ℚ))]) (.series [((0:Nat), Val.num (0:ℚ))])
        .intersect = .series r ∧
      index r = index [((0:Nat), Val.num (10:ℚ))] ∧
      ∃ hj : 0 < r.length,
        (r.get ⟨0, hj⟩).2 = .inf ∨ (r.get ⟨0, hj⟩).2 = .neginf ∨ (r.get ⟨0, hj⟩).2 = .nan) ∧
    divide (.series [((0:Nat), Val.num (10:ℚ))]) (.series [((0:Nat), Val.num (0:ℚ))]) .intersect
      = .series [(0, .inf)] :=
  divide_zero_denominator [((0:Nat), Val.num (10:ℚ))] [((0:Nat), Val.num (0:ℚ))] 0
    (by decide) (by decide) rfl rfl

/-- Claim C7 (counterexample): a negative scalar passed to `sqrt` is dispatched
to `math.sqrt`, which raises a domain error instead of returning the NaN of the
platform convention. -/
theorem sqrt_negative_scalar_counterexample :
    sqrt (.scalar (.num (-1))) = none := by
  have h : ((-1 : ℝ) < 0) := by norm_num
  simp [sqrt, mathSqrtVal, h]

/-- Claim C7 (amended): `sqrt` returns the same shape as its input, applying
the square root elementwise; a negative value inside a series yields NaN
(numpy convention, no error), but a negative scalar fails with a domain error
(`math.sqrt`). -/
theorem sqrt_shape (s : RSeries) (a : ℝ) :
    (∃ r, sqrt (.series s) = some (.series r) ∧ index r = index s ∧
      ∀ i (hi : i < s.length) (b : ℝ), (s.get ⟨i, hi⟩).2 = .num b →
        ∃ hj : i < r.length,
          (r.get ⟨i, hj⟩).2 = if b < 0 then Val.nan else .num (Real.sqrt b)) ∧
    (0 ≤ a → sqrt (.scalar (.num a)) = some (.scalar (.num (Real.sqrt a)))) ∧
    (a < 0 → sqrt (.scalar (.num a)) = none) := by
  refine ⟨⟨s.map (fun p => (p.1, npSqrtVal p.2)), ?_, ?_, ?_⟩, ?_, ?_⟩
  · rfl
  · have hcomp : (Prod.fst ∘ fun p : Nat × RVal => (p.1, npSqrtVal p.2)) = Prod.fst := rfl
    simp [index, List.map_map, hcomp]
  · intro i hi b hval
    have hj : i < (s.map (fun p => (p.1, npSqrtVal p.2))).length := by simpa using hi
    refine ⟨hj, ?_⟩
    have hmap : (s.map (fun p => (p.1, npSqrtVal p.2))).get ⟨i, hj⟩
        = ((s.get ⟨i, hi⟩).1, npSqrtVal (s.get ⟨i, hi⟩).2) := by
      simp [List.get_eq_getElem, List.getElem_map]
    rw [hmap]
    show npSqrtVal (s.get ⟨i, hi⟩).2 = _
    rw [hval]
    rfl
  · intro ha
    simp [sqrt, mathSqrtVal, not_lt.2 ha]
  · intro ha
    simp [sqrt, mathSqrtVal, ha]

theorem sqrt_shape_witness :
    (0 : ℝ) ≤ 4 ∧ sqrt (.scalar (.num 4)) = some (.scalar (.num (Real.sqrt 4))) :=
  ⟨by norm_num, (sqrt_shape [] 4).2.1 (by norm_num)⟩

/-- Claim C9: for a series whose values are all strictly positive numbers,
`exp(log(a))` returns `a` itself, elementwise with the index unchanged. -/
theorem exp_log_roundtrip (a : RSeries)
    (h : ∀ p ∈ a, ∃ q : ℝ, 0 < q ∧ p.2 = Val.num q) :
    exp (log a) = a := by
  induction a with
  | nil => rfl
  | cons p rest ih =>
      rcases h p (List.mem_cons_self p rest) with ⟨q, hq, hp⟩
      have hrest := ih (fun r hr => h r (List.mem_cons_of_mem p hr))
      show (p.1, expVal (logVal p.2)) :: exp (log rest) = p :: rest
      rw [hp]
      have hlog : logVal (Val.num q) = Val.num (Real.log q) := by
        simp [logVal, not_lt.2 (le_of_lt hq), ne_of_gt hq]
      rw [hlog]
      show (p.1, Val.num (Real.exp (Real.log q))) :: exp (log rest) = p :: rest
      rw [Real.exp_log hq, hrest, ← hp]

theorem exp_log_roundtrip_witness :
    exp (log [((0:Nat), Val.num (1:ℝ))]) = [((0:Nat), Val.num (1:ℝ))] :=
  exp_log_roundtrip [((0:Nat), Val.num (1:ℝ))] (by
    intro p hp
    simp only [List.mem_singleton] at hp
    exact ⟨1, one_pos, by rw [hp]⟩)

theorem powVal_one (v : RVal) : powVal v 1 = v := by
  cases v with
  | num a =>
      have h1 : ¬ (a = 0 ∧ (1:ℝ) < 0) := by norm_num
      have h2 : ¬ (a < 0 ∧ ¬ ∃ k : ℤ, (k : ℝ) = 1) := by
        rintro ⟨_, hk⟩
        exact hk ⟨1, by norm_num⟩
      have hr : Real.rpow a 1 = a := Real.rpow_one a
      simp only [powVal, if_neg h1, if_neg h2, hr]
  | nan => simp [powVal]
  | inf => norm_num [powVal]
  | neginf =>
      have h3 : ∃ k : ℤ, Odd k ∧ (k : ℝ) = 1 := ⟨1, odd_one, by norm_num⟩
      norm_num [powVal, h3]

/-- Claim C10: `power` with its default exponent (1) is the identity on
series, elementwise with the index unchanged. -/
theorem power_default_identity (x : RSeries) : power x = x := by
  induction x with
  | nil => rfl
  | cons p rest ih =>
      show (p.1, powVal p.2 1) :: power rest = p :: rest
      rw [powVal_one, ih]

end GsAlgebra
